import Mathlib

/-!
Shallow embedding of `githash.py` (classes `GitHasher`, `GitHashRepo`,
`NoSuchFileError`) together with the parts of its environment the code
observes: the SHA-1 hash from `hashlib`, the `cleanup_mode` helper of the
dulwich library, and the outcome of the external `git add -A` invocation,
which is passed in as data.

Byte strings (Python 2 `str`) are modelled as `List Nat`, each element a
byte value.  All definitions are structural recursions so that concrete
instances reduce inside the kernel.
-/

/-- ASCII bytes of a Lean string literal; used only to write down concrete
byte strings in examples. -/
def bytes (s : String) : List Nat := s.data.map Char.toNat

/-- Python `<` on byte strings: lexicographic order on the byte lists. -/
def ltB : List Nat → List Nat → Bool
  | _, [] => false
  | [], _ :: _ => true
  | a :: as, b :: bs => if a < b then true else if b < a then false else ltB as bs

/-- Python `k.startswith(p)`: plain string prefix test, `startsWithB k p`
holds when `k` begins with `p`. -/
def startsWithB : List Nat → List Nat → Bool
  | _, [] => true
  | [], _ :: _ => false
  | k :: ks, p :: ps => k == p && startsWithB ks ps

/-- Python `bytes.strip()` whitespace set (space, tab, LF, CR, VT, FF). -/
def isPySpace (b : Nat) : Bool :=
  b == 32 || b == 9 || b == 10 || b == 13 || b == 11 || b == 12

/-- Python `s.strip()`: drop leading and trailing ASCII whitespace. -/
def stripB (s : List Nat) : List Nat :=
  ((s.dropWhile isPySpace).reverse.dropWhile isPySpace).reverse

/- ### SHA-1 (the `hashlib.sha1` collaborator)

Plain-`Nat` implementation of FIPS 180 SHA-1: 32-bit words are naturals
reduced modulo `2^32` at every arithmetic step. -/

/-- `2^32`, the word modulus. -/
def M32 : Nat := 4294967296

/-- Rotate a 32-bit word left by `n` bits. -/
def rotl (n x : Nat) : Nat := (((x <<< n) % M32) ||| (x >>> (32 - n))) % M32

/-- SHA-1 round constant for round `i`. -/
def sha1K (i : Nat) : Nat :=
  if i < 20 then 1518500249
  else if i < 40 then 1859775393
  else if i < 60 then 2400959708
  else 3395469782

/-- SHA-1 round mixing function for round `i`. -/
def sha1F (i b c d : Nat) : Nat :=
  if i < 20 then (b &&& c) ||| ((b ^^^ (M32 - 1)) &&& d)
  else if i < 40 then b ^^^ c ^^^ d
  else if i < 60 then (b &&& c) ||| (b &&& d) ||| (c &&& d)
  else b ^^^ c ^^^ d

/-- Group bytes into big-endian 32-bit words. -/
def toWords : List Nat → List Nat
  | b0 :: b1 :: b2 :: b3 :: rest =>
      (((b0 * 256 + b1) * 256 + b2) * 256 + b3) :: toWords rest
  | _ => []

/-- Extend the 16-word message schedule; each step appends
`rotl 1 (w[i-3] xor w[i-8] xor w[i-14] xor w[i-16])`. -/
def extendW : Nat → Array Nat → Array Nat
  | 0, w => w
  | fuel + 1, w =>
      let i := w.size
      extendW fuel (w.push (rotl 1
        ((w.getD (i - 3) 0) ^^^ (w.getD (i - 8) 0) ^^^
         (w.getD (i - 14) 0) ^^^ (w.getD (i - 16) 0))))

/-- The 80-word schedule of one 64-byte chunk. -/
def schedule (chunk : List Nat) : Array Nat := extendW 64 (toWords chunk).toArray

/-- The 80 compression rounds, starting at round `i` with `fuel` rounds left. -/
def rounds (w : Array Nat) : Nat → Nat →
    Nat × Nat × Nat × Nat × Nat → Nat × Nat × Nat × Nat × Nat
  | _, 0, st => st
  | i, fuel + 1, (a, b, c, d, e) =>
      let t := (rotl 5 a + sha1F i b c d + e + sha1K i + w.getD i 0) % M32
      rounds w (i + 1) fuel (t, a, rotl 30 b, c, d)

/-- Fold one 64-byte chunk into the running hash state. -/
def processChunk (h : Nat × Nat × Nat × Nat × Nat) (chunk : List Nat) :
    Nat × Nat × Nat × Nat × Nat :=
  let w := schedule chunk
  let (h0, h1, h2, h3, h4) := h
  let (a, b, c, d, e) := rounds w 0 80 (h0, h1, h2, h3, h4)
  ((h0 + a) % M32, (h1 + b) % M32, (h2 + c) % M32, (h3 + d) % M32, (h4 + e) % M32)

/-- Split a byte list into 64-byte chunks (`fuel` bounds the recursion). -/
def chunksOf : Nat → List Nat → List (List Nat)
  | 0, _ => []
  | fuel + 1, l => if l = [] then [] else l.take 64 :: chunksOf fuel (l.drop 64)

/-- `fuel` bytes of `n`, big-endian. -/
def beBytes : Nat → Nat → List Nat
  | 0, _ => []
  | fuel + 1, n => beBytes fuel (n / 256) ++ [n % 256]

/-- SHA-1 padding: `0x80`, zeros to 56 mod 64, then the 64-bit bit length. -/
def sha1Pad (msg : List Nat) : List Nat :=
  msg ++ [128] ++ List.replicate ((119 - msg.length % 64) % 64) 0 ++
    beBytes 8 (msg.length * 8)

/-- SHA-1 of a byte string, as the five 32-bit state words. -/
def sha1 (msg : List Nat) : Nat × Nat × Nat × Nat × Nat :=
  let padded := sha1Pad msg
  (chunksOf (padded.length + 1) padded).foldl processChunk
    (1732584193, 4023233417, 2562383102, 271733878, 3285377520)

/-- Lowercase hex digit for a value below 16. -/
def hexChar (n : Nat) : Char :=
  if n < 10 then Char.ofNat (48 + n) else Char.ofNat (87 + n)

/-- Eight lowercase hex digits of a 32-bit word, most significant first. -/
def toHex8 (w : Nat) : List Char :=
  [hexChar (w / 268435456 % 16), hexChar (w / 16777216 % 16),
   hexChar (w / 1048576 % 16), hexChar (w / 65536 % 16),
   hexChar (w / 4096 % 16), hexChar (w / 256 % 16),
   hexChar (w / 16 % 16), hexChar (w % 16)]

/-- `hashlib.sha1(msg).hexdigest()`: the 40-character lowercase hex digest. -/
def sha1Hex (msg : List Nat) : String :=
  let (h0, h1, h2, h3, h4) := sha1 msg
  String.mk (toHex8 h0 ++ toHex8 h1 ++ toHex8 h2 ++ toHex8 h3 ++ toHex8 h4)

/- ### Index entries and their rendering (`GitHashRepo._entry_str`) -/

/-- The fields of a dulwich `IndexEntry` that this program reads: the file
mode and the (hex) content address. -/
structure Entry where
  mode : Nat
  sha : List Nat
deriving DecidableEq

/-- The external dulwich helper `index.cleanup_mode`: symlinks map to
`0o120000`, directories and gitlinks pass through, every other mode becomes
`0o100644`, with `0o755` permissions when any execute bit is set. -/
def cleanupMode (m : Nat) : Nat :=
  if m &&& 61440 = 40960 then 40960
  else if m &&& 61440 = 16384 ∨ m &&& 61440 = 57344 then m
  else if m &&& 73 ≠ 0 then 33261 else 33188

/-- Most-significant-first octal digits of `n` as ASCII bytes (empty for 0);
`fuel` bounds the recursion depth. -/
def octDigits : Nat → Nat → List Nat
  | 0, _ => []
  | fuel + 1, n => if n = 0 then [] else octDigits fuel (n / 8) ++ [48 + n % 8]

/-- Python `b'%o' % n`: minimal octal rendering of a nonnegative integer. -/
def octB (n : Nat) : List Nat := if n = 0 then [48] else octDigits n n

/-- `GitHashRepo._entry_str`: render one entry in the
`"{mode} {sha} 0\t{file}"` layout (space = 32, `0` = 48, tab = 9). -/
def entryStr (e : Entry) (path : List Nat) : List Nat :=
  octB (cleanupMode e.mode) ++ [32] ++ e.sha ++ [32, 48, 9] ++ path

/- ### Python dict on byte-string keys (`self.meta`, `self.index`) -/

/-- Python `d[k]` as an option: first binding of `k` in the association
list (Python dicts are modelled as insertion-ordered association lists
with unique keys). -/
def dictGet {α : Type} (k : List Nat) : List (List Nat × α) → Option α
  | [] => none
  | (k', v) :: rest => if k = k' then some v else dictGet k rest

/-- Python `d[k] = v`: replace the value at an existing key in place,
otherwise append the new binding at the end. -/
def dictSet {α : Type} (m : List (List Nat × α)) (k : List Nat) (v : α) :
    List (List Nat × α) :=
  match m with
  | [] => [(k, v)]
  | (k', v') :: rest =>
      if k = k' then (k', v) :: rest else (k', v') :: dictSet rest k v

/- ### `GitHashRepo` -/

/-- The in-memory state of a `GitHashRepo`: `repo_dir`, the precomputed
`repo_dir_slash = os.path.join(repo_dir, '')`, and the index read by
`_create_index` (empty before the first `update()`).  The purely on-disk
path fields (`dot_dir`, `index_file`, `objects`) name files the embedding
does not touch. -/
structure RepoState where
  repoDir : List Nat
  repoDirSlash : List Nat
  index : List (List Nat × Entry)
deriving DecidableEq

/-- `os.path.join(d, '')`: append `/` (47) unless `d` is empty or already
ends with `/`. -/
def joinSlash (d : List Nat) : List Nat :=
  if d = [] ∨ d.getLast? = some 47 then d else d ++ [47]

/-- `GitHashRepo.__init__(repo_dir)` (index not yet read). -/
def mkRepo (d : List Nat) : RepoState :=
  { repoDir := d, repoDirSlash := joinSlash d, index := [] }

/-- `GitHashRepo._norm_path`: strip the leading `repo_dir_slash` when
present, otherwise return the path unchanged. -/
def normPath (rs p : List Nat) : List Nat :=
  if startsWithB p rs then p.drop rs.length else p

/-- The loop of Python's `bisect_left` on `[lo, hi)`; `fuel` bounds the
number of iterations. -/
def bisectGo (keys : List (List Nat)) (x : List Nat) :
    Nat → Nat → Nat → Nat
  | 0, lo, _ => lo
  | fuel + 1, lo, hi =>
      if lo < hi then
        let mid := (lo + hi) / 2
        if ltB (keys.getD mid []) x then bisectGo keys x fuel (mid + 1) hi
        else bisectGo keys x fuel lo mid
      else lo

/-- `bisect_left(keys, x)`: index of the first key `≥ x`. -/
def bisectLeft (keys : List (List Nat)) (x : List Nat) : Nat :=
  bisectGo keys x (keys.length + 1) 0 keys.length

/-- `GitHashRepo._sub_paths` on the key sequence: bisect to the lower
bound, then scan forward while keys start with `path`. -/
def subPathsK (keys : List (List Nat)) (path : List Nat) : List (List Nat) :=
  (keys.drop (bisectLeft keys path)).takeWhile (fun k => startsWithB k path)

/-- The index key sequence (`self.index.keys()`). -/
def indexKeys (st : RepoState) : List (List Nat) := st.index.map (fun kv => kv.1)

/-- Errors the Python code raises: `NoSuchFileError` (carrying the path the
caller passed), the `RuntimeError` from a failed `git add -A` (the spec's
`ExecutionError`, carrying the stripped stderr), and the constructor's
`ValueError`. -/
inductive PyErr
  | noSuchFile (file : List Nat)
  | executionError (stderr : List Nat)
  | valueError
deriving DecidableEq

/-- `self.index[p]` for a key known to be present (junk entry otherwise). -/
def getEntry (st : RepoState) (p : List Nat) : Entry :=
  (dictGet p st.index).getD { mode := 0, sha := [] }

/-- `GitHashRepo.file`: normalize, look up exactly, render; `KeyError`
becomes `NoSuchFileError` carrying the original argument. -/
def repoFile (st : RepoState) (f : List Nat) : Except PyErr (List Nat) :=
  let nf := normPath st.repoDirSlash f
  match dictGet nf st.index with
  | some e => Except.ok (entryStr e nf)
  | none => Except.error (PyErr.noSuchFile f)

/-- `GitHashRepo.tree`: normalize, collect the sub-paths, fail on an empty
result, else join the rendered entries with single newlines (10). -/
def repoTree (st : RepoState) (pfx : List Nat) : Except PyErr (List Nat) :=
  let np := normPath st.repoDirSlash pfx
  let paths := subPathsK (indexKeys st) np
  if paths = [] then Except.error (PyErr.noSuchFile pfx)
  else Except.ok (List.intercalate [10] (paths.map (fun p => entryStr (getEntry st p) p)))

/-- What the embedding observes of one `git add -A` invocation: the exit
code, the captured streams, and the index contents `_create_index` would
read back on success. -/
structure ToolResult where
  retcode : Int
  stdout : List Nat
  stderr : List Nat
  indexEntries : List (List Nat × Entry)
deriving DecidableEq

/-- `GitHashRepo.update`: on a non-zero exit code raise the execution
error with the stripped stderr (leaving the index untouched); on success
replace the index wholesale with the re-read one and return the stripped
stdout. -/
def update (st : RepoState) (r : ToolResult) :
    RepoState × Except PyErr (List Nat) :=
  if r.retcode ≠ 0 then (st, Except.error (PyErr.executionError (stripB r.stderr)))
  else ({ st with index := r.indexEntries }, Except.ok (stripB r.stdout))

/- ### `GitHasher` -/

/-- `GitHasher` state: the repo it queries, the byte stream fed to the
`hashlib.sha1` accumulator so far, and the metadata dict. -/
structure Hasher where
  repo : RepoState
  stream : List Nat
  meta : List (List Nat × List Nat)
deriving DecidableEq

/-- `GitHasher.add_file`: look the file up and feed its rendering to the
running hash. -/
def addFileH (h : Hasher) (f : List Nat) : Except PyErr Hasher :=
  match repoFile h.repo f with
  | Except.ok s => Except.ok { h with stream := h.stream ++ s }
  | Except.error e => Except.error e

/-- `GitHasher.add_tree`: look the subtree listing up and feed it to the
running hash. -/
def addTreeH (h : Hasher) (pfx : List Nat) : Except PyErr Hasher :=
  match repoTree h.repo pfx with
  | Except.ok s => Except.ok { h with stream := h.stream ++ s }
  | Except.error e => Except.error e

/-- `GitHasher.add_meta`: store the value under the key, last write wins. -/
def addMetaH (h : Hasher) (k v : List Nat) : Hasher :=
  { h with meta := dictSet h.meta k v }

/-- One step of insertion sort under `ltB`. -/
def insertSorted (x : List Nat) : List (List Nat) → List (List Nat)
  | [] => [x]
  | y :: ys => if ltB x y then x :: y :: ys else y :: insertSorted x ys

/-- Python `sorted` on byte-string keys (the keys are unique, so any
correct sort produces the same list). -/
def sortKeys (l : List (List Nat)) : List (List Nat) := l.foldr insertSorted []

/-- The bytes `_hash_meta` feeds: for each key in sorted order, the key
then its value. -/
def metaStream (m : List (List Nat × List Nat)) : List Nat :=
  (sortKeys (m.map (fun kv => kv.1))).flatMap (fun k => k ++ (dictGet k m).getD [])

/-- `GitHasher._hash_meta`: fold the sorted metadata into the running hash. -/
def hashMetaH (h : Hasher) : Hasher :=
  { h with stream := h.stream ++ metaStream h.meta }

/-- `GitHasher.digest`: fold the metadata (mutating the shared hash state),
then return the hex digest; the mutated state is returned alongside. -/
def digestH (h : Hasher) : Hasher × String :=
  let h2 := hashMetaH h
  (h2, sha1Hex h2.stream)

/-- `GitHasher.__init__(dir, repo)`: Python truthiness on `dir` (a `None`
or empty path is falsy), then on `repo` (any repo object is truthy); with
a truthy `dir` it builds a repo and runs `update()` before returning. -/
def initHasher (dir : Option (List Nat)) (repo : Option RepoState)
    (tool : ToolResult) : Except PyErr Hasher :=
  if dir.getD [] ≠ [] then
    let upd := update (mkRepo (dir.getD [])) tool
    match upd.2 with
    | Except.error e => Except.error e
    | Except.ok _ => Except.ok { repo := upd.1, stream := [], meta := [] }
  else
    match repo with
    | some st => Except.ok { repo := st, stream := [], meta := [] }
    | none => Except.error PyErr.valueError

/- ### Call sequences against one hasher -/

/-- One call in a `GitHasher` session. -/
inductive HOp
  | file (f : List Nat)
  | tree (pfx : List Nat)
  | meta (k v : List Nat)
deriving DecidableEq

/-- Apply one call to the hasher state. -/
def applyOp (h : Hasher) : HOp → Except PyErr Hasher
  | HOp.file f => addFileH h f
  | HOp.tree pfx => addTreeH h pfx
  | HOp.meta k v => Except.ok (addMetaH h k v)

/-- Run a call sequence, stopping at the first raised error. -/
def runOps (h : Hasher) : List HOp → Except PyErr Hasher
  | [] => Except.ok h
  | op :: ops =>
      match applyOp h op with
      | Except.ok h2 => runOps h2 ops
      | Except.error e => Except.error e

/-- The bytes one call contributes to the hash stream (empty for metadata
calls and for calls that would fail). -/
def opChunk (st : RepoState) : HOp → List Nat
  | HOp.file f => match repoFile st f with
      | Except.ok s => s
      | Except.error _ => []
  | HOp.tree pfx => match repoTree st pfx with
      | Except.ok s => s
      | Except.error _ => []
  | HOp.meta _ _ => []

/-- The final metadata mapping left by a call sequence. -/
def finalMeta (ops : List HOp) : List (List Nat × List Nat) :=
  ops.foldl (fun m op => match op with
    | HOp.meta k v => dictSet m k v
    | _ => m) []

/- ### Order lemmas for the byte-string order -/

theorem ltB_irrefl (a : List Nat) : ltB a a = false := by
  induction a with
  | nil => rfl
  | cons x as ih => simp [ltB, ih]

theorem ltB_trans (a : List Nat) :
    ∀ b c, ltB a b = true → ltB b c = true → ltB a c = true := by
  induction a with
  | nil =>
    intro b c h1 h2
    cases c with
    | nil =>
      cases b with
      | nil => simp [ltB] at h1
      | cons y bs => simp [ltB] at h2
    | cons z cs => simp [ltB]
  | cons x as ih =>
    intro b c h1 h2
    cases b with
    | nil => simp [ltB] at h1
    | cons y bs =>
      cases c with
      | nil => simp [ltB] at h2
      | cons z cs =>
        simp only [ltB] at h1 h2 ⊢
        split_ifs at h1 h2 ⊢ with hxy hyx hyz hzy hxz hzx
        all_goals try rfl
        all_goals try omega
        all_goals exact ih bs cs h1 h2

theorem ltB_asymm {a b : List Nat} (h : ltB a b = true) : ltB b a = false := by
  by_contra hc
  have hba : ltB b a = true := by
    cases hh : ltB b a with
    | false => exact absurd hh hc
    | true => rfl
  have := ltB_trans a b a h hba
  rw [ltB_irrefl] at this
  cases this

theorem ltB_eq_of_not_lt (a : List Nat) :
    ∀ b, ltB a b = false → ltB b a = false → a = b := by
  induction a with
  | nil =>
    intro b h1 _
    cases b with
    | nil => rfl
    | cons y bs => simp [ltB] at h1
  | cons x as ih =>
    intro b h1 h2
    cases b with
    | nil => simp [ltB] at h2
    | cons y bs =>
      simp only [ltB] at h1 h2
      by_cases hxy : x < y
      · simp [hxy] at h1
      · by_cases hyx : y < x
        · simp [hxy, hyx] at h2
        · simp only [if_neg hxy, if_neg hyx] at h1 h2
          have hx : x = y := by omega
          subst hx
          rw [ih bs h1 h2]

/- ### Prefix lemmas -/

theorem startsWithB_iff (k : List Nat) :
    ∀ p, startsWithB k p = true ↔ p ++ k.drop p.length = k := by
  induction k with
  | nil =>
    intro p
    cases p with
    | nil => simp [startsWithB]
    | cons a ps => simp [startsWithB]
  | cons x ks ih =>
    intro p
    cases p with
    | nil => simp [startsWithB]
    | cons a ps =>
      simp only [startsWithB, List.length_cons, List.drop_succ_cons,
        List.cons_append, Bool.and_eq_true, beq_iff_eq, List.cons.injEq]
      constructor
      · rintro ⟨h1, h2⟩
        exact ⟨h1.symm, (ih ps).mp h2⟩
      · rintro ⟨h1, h2⟩
        exact ⟨h1.symm, (ih ps).mpr h2⟩

/-- A key that starts with `p` is not below `p` in the byte order. -/
theorem not_ltB_of_startsWithB {k p : List Nat}
    (h : startsWithB k p = true) : ltB k p = false := by
  induction p generalizing k with
  | nil =>
    cases k with
    | nil => rfl
    | cons x ks => rfl
  | cons a ps ih =>
    cases k with
    | nil => simp [startsWithB] at h
    | cons x ks =>
      simp only [startsWithB, Bool.and_eq_true, beq_iff_eq] at h
      obtain ⟨hx, hk⟩ := h
      subst hx
      simp [ltB, ih hk]

/-- Above a non-match that is itself not below `p`, nothing matches `p`:
if `a` is at or above `p`, does not start with `p`, and `b` is above `a`,
then `b` does not start with `p` either. -/
theorem not_startsWithB_above {p a b : List Nat}
    (hge : ltB a p = false) (hno : startsWithB a p = false)
    (hab : ltB a b = true) : startsWithB b p = false := by
  induction p generalizing a b with
  | nil => simp [startsWithB] at hno
  | cons c ps ih =>
    cases a with
    | nil => simp [ltB] at hge
    | cons x as =>
      cases b with
      | nil => simp [ltB] at hab
      | cons y bs =>
        simp only [ltB] at hge hab
        simp only [startsWithB] at hno ⊢
        by_cases hxc : x < c
        · simp [hxc] at hge
        · by_cases hcx : c < x
          · have hyc : c < y := by
              by_cases hxy : x < y
              · omega
              · by_cases hyx : y < x
                · simp [hxy, hyx] at hab
                · omega
            have hyne : (y == c) = false := by
              simp only [beq_eq_false_iff_ne, ne_eq]
              omega
            simp [hyne]
          · have hxc2 : x = c := by omega
            subst hxc2
            simp only [if_neg hxc, if_neg hcx] at hge
            have hno2 : startsWithB as ps = false := by simpa using hno
            by_cases hxy : x < y
            · have hyne : (y == x) = false := by
                simp only [beq_eq_false_iff_ne, ne_eq]
                omega
              simp [hyne]
            · by_cases hyx : y < x
              · simp [hxy, hyx] at hab
              · simp only [if_neg hxy, if_neg hyx] at hab
                have hxy2 : x = y := by omega
                subst hxy2
                simp [ih hge hno2 hab]

/- ### Correctness of the lower-bound binary search -/

/-- Sorted at positions: turn the pairwise hypothesis into an
index-to-index comparison on `getD`. -/
theorem sorted_getD_lt {keys : List (List Nat)}
    (hs : keys.Pairwise (fun a b => ltB a b = true)) {i j : Nat}
    (hij : i < j) (hj : j < keys.length) :
    ltB (keys.getD i []) (keys.getD j []) = true := by
  have hi : i < keys.length := lt_trans hij hj
  rw [List.getD_eq_getElem keys [] hi, List.getD_eq_getElem keys [] hj]
  exact List.pairwise_iff_getElem.mp hs i j hi hj hij

/-- Invariant of the `bisect_left` loop: starting from a window whose left
part is all `< x` and whose right part is all `≥ x`, the loop returns the
boundary position. -/
theorem bisectGo_spec (keys : List (List Nat)) (x : List Nat)
    (hs : keys.Pairwise (fun a b => ltB a b = true)) :
    ∀ fuel lo hi, hi - lo < fuel → lo ≤ hi → hi ≤ keys.length →
    (∀ j, j < lo → ltB (keys.getD j []) x = true) →
    (∀ j, hi ≤ j → j < keys.length → ltB (keys.getD j []) x = false) →
    (∀ j, j < bisectGo keys x fuel lo hi → ltB (keys.getD j []) x = true) ∧
    (∀ j, bisectGo keys x fuel lo hi ≤ j → j < keys.length →
      ltB (keys.getD j []) x = false) ∧
    bisectGo keys x fuel lo hi ≤ keys.length := by
  intro fuel
  induction fuel with
  | zero => intro lo hi hfuel _ _ _ _; omega
  | succ fuel ih =>
    intro lo hi hfuel hlohi hhi hlo hhiF
    by_cases hlt : lo < hi
    · have hmid1 : lo ≤ (lo + hi) / 2 := by omega
      have hmid2 : (lo + hi) / 2 < hi := by omega
      by_cases hk : ltB (keys.getD ((lo + hi) / 2) []) x = true
      · have hstep : bisectGo keys x (fuel + 1) lo hi =
            bisectGo keys x fuel ((lo + hi) / 2 + 1) hi := by
          simp only [bisectGo, if_pos hlt, if_pos hk]
        rw [hstep]
        refine ih ((lo + hi) / 2 + 1) hi (by omega) (by omega) hhi ?_ hhiF
        intro j hj
        rcases Nat.lt_or_ge j lo with hc | hc
        · exact hlo j hc
        · rcases Nat.lt_or_ge j ((lo + hi) / 2) with hc2 | hc2
          · exact ltB_trans _ _ _ (sorted_getD_lt hs hc2 (by omega)) hk
          · have : j = (lo + hi) / 2 := by omega
            rw [this]
            exact hk
      · have hk2 : ltB (keys.getD ((lo + hi) / 2) []) x = false := by
          simpa using hk
        have hstep : bisectGo keys x (fuel + 1) lo hi =
            bisectGo keys x fuel lo ((lo + hi) / 2) := by
          simp only [bisectGo, if_pos hlt, if_neg hk]
        rw [hstep]
        refine ih lo ((lo + hi) / 2) (by omega) (by omega) (by omega) hlo ?_
        intro j hj hjlen
        rcases Nat.lt_or_ge j hi with hc | hc
        · rcases Nat.eq_or_lt_of_le hj with hc2 | hc2
          · rw [← hc2]
            exact hk2
          · cases hj2 : ltB (keys.getD j []) x with
            | false => rfl
            | true =>
              have := ltB_trans _ _ _ (sorted_getD_lt hs hc2 hjlen) hj2
              rw [hk2] at this
              cases this
        · exact hhiF j hc hjlen
    · have hstep : bisectGo keys x (fuel + 1) lo hi = lo := by
        simp only [bisectGo, if_neg hlt]
      have hle : lo = hi := by omega
      rw [hstep]
      exact ⟨hlo, fun j hj hjl => hhiF j (by omega) hjl, by omega⟩

/-- `bisect_left` returns the index of the first key `≥ x`. -/
theorem bisectLeft_spec (keys : List (List Nat)) (x : List Nat)
    (hs : keys.Pairwise (fun a b => ltB a b = true)) :
    (∀ j, j < bisectLeft keys x → ltB (keys.getD j []) x = true) ∧
    (∀ j, bisectLeft keys x ≤ j → j < keys.length →
      ltB (keys.getD j []) x = false) ∧
    bisectLeft keys x ≤ keys.length := by
  exact bisectGo_spec keys x hs (keys.length + 1) 0 keys.length
    (by omega) (by omega) (le_refl _)
    (fun j hj => absurd hj (by omega))
    (fun j hj hjl => absurd hjl (by omega))

/- ### The forward scan collects exactly the matching keys -/

/-- Over a sorted run that lies entirely at or above `p`, scanning while
the prefix matches is the same as filtering for the prefix. -/
theorem takeWhile_eq_filter_of_sorted (p : List Nat) :
    ∀ l : List (List Nat), l.Pairwise (fun a b => ltB a b = true) →
    (∀ k ∈ l, ltB k p = false) →
    l.takeWhile (fun k => startsWithB k p) =
      l.filter (fun k => startsWithB k p) := by
  intro l
  induction l with
  | nil => intro _ _; rfl
  | cons a l ih =>
    intro hs hge
    rw [List.pairwise_cons] at hs
    by_cases ha : startsWithB a p = true
    · rw [List.takeWhile_cons, List.filter_cons, if_pos ha, if_pos ha,
        ih hs.2 (fun k hk => hge k (List.mem_cons_of_mem a hk))]
    · have ha2 : startsWithB a p = false := by simpa using ha
      have hnone : ∀ k ∈ l, startsWithB k p = false := fun k hk =>
        not_startsWithB_above (hge a (List.mem_cons_self a l)) ha2 (hs.1 k hk)
      rw [List.takeWhile_cons, List.filter_cons, if_neg ha, if_neg ha]
      rw [eq_comm, List.filter_eq_nil_iff]
      intro k hk
      rw [hnone k hk]
      simp

/-- `_sub_paths` returns exactly the keys having `p` as a plain string
prefix, in key order. -/
theorem subPathsK_eq_filter (keys : List (List Nat)) (p : List Nat)
    (hs : keys.Pairwise (fun a b => ltB a b = true)) :
    subPathsK keys p = keys.filter (fun k => startsWithB k p) := by
  obtain ⟨h1, h2, h3⟩ := bisectLeft_spec keys p hs
  have htake : (keys.take (bisectLeft keys p)).filter
      (fun k => startsWithB k p) = [] := by
    rw [List.filter_eq_nil_iff]
    intro k hk
    obtain ⟨j, hj, hkj⟩ := List.mem_iff_getElem.mp hk
    have hjlt : j < bisectLeft keys p := by
      have := hj
      simp only [List.length_take] at this
      omega
    have hjlen : j < keys.length := by omega
    have hlt : ltB k p = true := by
      have := h1 j hjlt
      rw [List.getD_eq_getElem keys [] hjlen] at this
      rw [← hkj, List.getElem_take]
      exact this
    intro hsw
    rw [not_ltB_of_startsWithB hsw] at hlt
    cases hlt
  have hdrop_sorted : (keys.drop (bisectLeft keys p)).Pairwise
      (fun a b => ltB a b = true) :=
    List.Pairwise.sublist (List.drop_sublist _ _) hs
  have hdrop_ge : ∀ k ∈ keys.drop (bisectLeft keys p), ltB k p = false := by
    intro k hk
    obtain ⟨j, hj, hkj⟩ := List.mem_iff_getElem.mp hk
    have hjlen : j < (keys.drop (bisectLeft keys p)).length := hj
    have hlen : bisectLeft keys p + j < keys.length := by
      simp only [List.length_drop] at hjlen
      omega
    have := h2 (bisectLeft keys p + j) (by omega) hlen
    rw [List.getD_eq_getElem keys [] hlen] at this
    rw [← hkj, List.getElem_drop]
    exact this
  have hmain : subPathsK keys p =
      (keys.drop (bisectLeft keys p)).filter (fun k => startsWithB k p) :=
    takeWhile_eq_filter_of_sorted p _ hdrop_sorted hdrop_ge
  conv_rhs => rw [← List.take_append_drop (bisectLeft keys p) keys]
  rw [List.filter_append, htake, List.nil_append, hmain]

/- ### Dict lemmas -/

theorem dictGet_dictSet {α : Type} (m : List (List Nat × α))
    (k k' : List Nat) (v : α) :
    dictGet k' (dictSet m k v) = if k' = k then some v else dictGet k' m := by
  induction m with
  | nil => simp only [dictSet, dictGet]
  | cons kv rest ih =>
    obtain ⟨k0, v0⟩ := kv
    by_cases h0 : k = k0
    · subst h0
      by_cases h : k' = k
      · subst h
        simp [dictSet, dictGet]
      · simp [dictSet, dictGet, h]
    · rw [show dictSet ((k0, v0) :: rest) k v = (k0, v0) :: dictSet rest k v by
        simp [dictSet, h0]]
      by_cases h : k' = k0
      · subst h
        simp [dictGet, Ne.symm h0]
      · simp [dictGet, h, ih]

theorem dictSet_keys {α : Type} (m : List (List Nat × α)) (k : List Nat)
    (v : α) :
    (dictSet m k v).map (fun kv => kv.1) =
      if k ∈ m.map (fun kv => kv.1) then m.map (fun kv => kv.1)
      else m.map (fun kv => kv.1) ++ [k] := by
  induction m with
  | nil => simp [dictSet]
  | cons kv rest ih =>
    obtain ⟨k0, v0⟩ := kv
    by_cases h0 : k = k0
    · subst h0
      simp [dictSet]
    · simp only [dictSet, if_neg h0, List.map_cons, List.mem_cons, ih]
      by_cases hm : k ∈ rest.map (fun kv => kv.1)
      · simp [hm, h0]
      · simp [hm, h0]

theorem dictSet_nodupKeys {α : Type} {m : List (List Nat × α)}
    (hm : (m.map (fun kv => kv.1)).Nodup) (k : List Nat) (v : α) :
    ((dictSet m k v).map (fun kv => kv.1)).Nodup := by
  rw [dictSet_keys]
  by_cases hk : k ∈ m.map (fun kv => kv.1)
  · simpa [hk] using hm
  · simp only [if_neg hk]
    rw [List.nodup_append]
    exact ⟨hm, List.nodup_singleton k, by simpa using hk⟩

theorem dictGet_isSome_iff {α : Type} (m : List (List Nat × α))
    (k : List Nat) :
    (dictGet k m).isSome = true ↔ k ∈ m.map (fun kv => kv.1) := by
  induction m with
  | nil => simp [dictGet]
  | cons kv rest ih =>
    obtain ⟨k0, v0⟩ := kv
    by_cases h : k = k0
    · subst h
      simp [dictGet]
    · simp [dictGet, h, ih]

/- ### Sorting lemmas (`sorted(self.meta.keys())`) -/

theorem insertSorted_perm (x : List Nat) (l : List (List Nat)) :
    (insertSorted x l).Perm (x :: l) := by
  induction l with
  | nil => exact List.Perm.refl _
  | cons y ys ih =>
    by_cases h : ltB x y = true
    · rw [insertSorted, if_pos h]
    · rw [insertSorted, if_neg h]
      exact (ih.cons y).trans (List.Perm.swap x y ys)

theorem sortKeys_perm (l : List (List Nat)) : (sortKeys l).Perm l := by
  induction l with
  | nil => exact List.Perm.refl _
  | cons x xs ih =>
    exact (insertSorted_perm x (sortKeys xs)).trans (ih.cons x)

theorem insertSorted_pairwise {l : List (List Nat)} (x : List Nat)
    (hl : l.Pairwise (fun a b => ltB b a = false)) :
    (insertSorted x l).Pairwise (fun a b => ltB b a = false) := by
  induction l with
  | nil => simp [insertSorted]
  | cons y ys ih =>
    rw [List.pairwise_cons] at hl
    by_cases h : ltB x y = true
    · rw [insertSorted, if_pos h]
      rw [List.pairwise_cons]
      constructor
      · intro a ha
        rcases List.mem_cons.mp ha with ha | ha
        · subst ha
          exact ltB_asymm h
        · cases hax : ltB a x with
          | false => rfl
          | true =>
            have := ltB_trans a x y hax h
            rw [hl.1 a ha] at this
            cases this
      · rw [List.pairwise_cons]
        exact ⟨hl.1, hl.2⟩
    · rw [insertSorted, if_neg h]
      rw [List.pairwise_cons]
      constructor
      · intro a ha
        have := (insertSorted_perm x ys).mem_iff.mp ha
        rcases List.mem_cons.mp this with ha2 | ha2
        · subst ha2
          simpa using h
        · exact hl.1 a ha2
      · exact ih hl.2

theorem sortKeys_pairwise (l : List (List Nat)) :
    (sortKeys l).Pairwise (fun a b => ltB b a = false) := by
  induction l with
  | nil => simp [sortKeys]
  | cons x xs ih => exact insertSorted_pairwise x ih

/-- On duplicate-free keys the sort is strictly increasing. -/
theorem sortKeys_pairwise_strict {l : List (List Nat)} (hn : l.Nodup) :
    (sortKeys l).Pairwise (fun a b => ltB a b = true) := by
  have hns : (sortKeys l).Nodup := (sortKeys_perm l).nodup_iff.mpr hn
  have hp := sortKeys_pairwise l
  have := List.Pairwise.and hns hp
  refine this.imp ?_
  intro a b hab
  obtain ⟨hne, hge⟩ := hab
  cases h : ltB a b with
  | true => rfl
  | false => exact absurd (ltB_eq_of_not_lt a b h hge) hne

/-- Two strictly sorted lists with the same members are equal. -/
theorem sorted_eq_of_mem_iff :
    ∀ (l1 l2 : List (List Nat)),
    l1.Pairwise (fun a b => ltB a b = true) →
    l2.Pairwise (fun a b => ltB a b = true) →
    (∀ x, x ∈ l1 ↔ x ∈ l2) → l1 = l2 := by
  intro l1
  induction l1 with
  | nil =>
    intro l2 _ _ hmem
    rw [eq_comm, List.eq_nil_iff_forall_not_mem]
    intro a ha
    exact absurd ((hmem a).mpr ha) (List.not_mem_nil a)
  | cons a l1' ih =>
    intro l2 hs1 hs2 hmem
    cases l2 with
    | nil => exact absurd ((hmem a).mp (List.mem_cons_self a l1')) (List.not_mem_nil a)
    | cons b l2' =>
      rw [List.pairwise_cons] at hs1 hs2
      have hab : a = b := by
        rcases List.mem_cons.mp ((hmem a).mp (List.mem_cons_self a l1')) with h | h
        · exact h
        · rcases List.mem_cons.mp ((hmem b).mpr (List.mem_cons_self b l2')) with h2 | h2
          · exact h2.symm
          · have h3 := ltB_trans a b a (hs1.1 b h2) (hs2.1 a h)
            rw [ltB_irrefl] at h3
            cases h3
      subst hab
      have htails : ∀ x, x ∈ l1' ↔ x ∈ l2' := by
        intro x
        constructor
        · intro hx
          have hne : x ≠ a := by
            intro he
            subst he
            have := hs1.1 x hx
            rw [ltB_irrefl] at this
            cases this
          rcases List.mem_cons.mp ((hmem x).mp (List.mem_cons_of_mem a hx)) with h | h
          · exact absurd h hne
          · exact h
        · intro hx
          have hne : x ≠ a := by
            intro he
            subst he
            have := hs2.1 x hx
            rw [ltB_irrefl] at this
            cases this
          rcases List.mem_cons.mp ((hmem x).mpr (List.mem_cons_of_mem a hx)) with h | h
          · exact absurd h hne
          · exact h
      rw [ih l2' hs1.2 hs2.2 htails]

/- ### Metadata stream depends only on the final mapping -/

theorem metaStream_ext {m1 m2 : List (List Nat × List Nat)}
    (h1 : (m1.map (fun kv => kv.1)).Nodup)
    (h2 : (m2.map (fun kv => kv.1)).Nodup)
    (h : ∀ k, dictGet k m1 = dictGet k m2) :
    metaStream m1 = metaStream m2 := by
  have hkeys : sortKeys (m1.map (fun kv => kv.1)) =
      sortKeys (m2.map (fun kv => kv.1)) := by
    apply sorted_eq_of_mem_iff _ _ (sortKeys_pairwise_strict h1)
      (sortKeys_pairwise_strict h2)
    intro x
    rw [(sortKeys_perm _).mem_iff, (sortKeys_perm _).mem_iff,
      ← dictGet_isSome_iff, ← dictGet_isSome_iff, h x]
  have hf : (fun k => k ++ (dictGet k m1).getD []) =
      (fun k => k ++ (dictGet k m2).getD []) := by
    funext k
    rw [h k]
  rw [metaStream, metaStream, hkeys, hf]

/- ### The run invariant of a `GitHasher` session -/

/-- One metadata-fold step (the effect of a call on `self.meta`). -/
def metaStep (m : List (List Nat × List Nat)) : HOp → List (List Nat × List Nat)
  | HOp.meta k v => dictSet m k v
  | _ => m

theorem finalMeta_eq_foldl (ops : List HOp) :
    finalMeta ops = ops.foldl metaStep [] := by
  rw [finalMeta]
  congr 1

/-- A successful run leaves the repo untouched, accumulates exactly the
per-call contribution bytes in call order, and folds the metadata calls
into the dict. -/
theorem runOps_ok : ∀ (ops : List HOp) (h0 h : Hasher),
    runOps h0 ops = Except.ok h →
    h.repo = h0.repo ∧
    h.stream = h0.stream ++ ops.flatMap (opChunk h0.repo) ∧
    h.meta = ops.foldl metaStep h0.meta := by
  intro ops
  induction ops with
  | nil =>
    intro h0 h hr
    rw [runOps] at hr
    cases hr
    simp
  | cons op ops ih =>
    intro h0 h hr
    rw [runOps] at hr
    cases op with
    | file f =>
      rw [applyOp] at hr
      cases hf : repoFile h0.repo f with
      | error e => rw [addFileH, hf] at hr; cases hr
      | ok s =>
        rw [addFileH, hf] at hr
        obtain ⟨hrepo, hstream, hmeta⟩ := ih _ h hr
        refine ⟨hrepo, ?_, hmeta⟩
        rw [hstream, List.flatMap_cons]
        have : opChunk h0.repo (HOp.file f) = s := by rw [opChunk, hf]
        simp [this, List.append_assoc]
    | tree pfx =>
      rw [applyOp] at hr
      cases hf : repoTree h0.repo pfx with
      | error e => rw [addTreeH, hf] at hr; cases hr
      | ok s =>
        rw [addTreeH, hf] at hr
        obtain ⟨hrepo, hstream, hmeta⟩ := ih _ h hr
        refine ⟨hrepo, ?_, hmeta⟩
        rw [hstream, List.flatMap_cons]
        have : opChunk h0.repo (HOp.tree pfx) = s := by rw [opChunk, hf]
        simp [this, List.append_assoc]
    | meta k v =>
      rw [applyOp] at hr
      obtain ⟨hrepo, hstream, hmeta⟩ := ih _ h hr
      refine ⟨hrepo, ?_, ?_⟩
      · rw [hstream, List.flatMap_cons]
        have : opChunk h0.repo (HOp.meta k v) = [] := rfl
        simp [this, addMetaH]
      · rw [hmeta, List.foldl_cons]
        rfl

/-- `digest()` hashes the accumulated stream followed by the sorted
metadata stream. -/
theorem digestH_snd (h : Hasher) :
    (digestH h).2 = sha1Hex (h.stream ++ metaStream h.meta) := rfl

/-- The file/tree calls of a sequence, in order. -/
def nonMetaOps (ops : List HOp) : List HOp :=
  ops.filter (fun op => match op with
    | HOp.meta _ _ => false
    | _ => true)

theorem flatMap_opChunk_nonMeta (st : RepoState) :
    ∀ ops : List HOp,
    ops.flatMap (opChunk st) = (nonMetaOps ops).flatMap (opChunk st) := by
  intro ops
  induction ops with
  | nil => rfl
  | cons op ops ih =>
    cases op with
    | file f =>
      rw [List.flatMap_cons, ih]
      rfl
    | tree pfx =>
      rw [List.flatMap_cons, ih]
      rfl
    | meta k v =>
      rw [List.flatMap_cons]
      have h1 : opChunk st (HOp.meta k v) = [] := rfl
      have h2 : nonMetaOps (HOp.meta k v :: ops) = nonMetaOps ops := rfl
      rw [h1, h2, List.nil_append, ih]

theorem metaFold_nodup : ∀ (ops : List HOp) (m0 : List (List Nat × List Nat)),
    (m0.map (fun kv => kv.1)).Nodup →
    ((ops.foldl metaStep m0).map (fun kv => kv.1)).Nodup := by
  intro ops
  induction ops with
  | nil => intro m0 h; exact h
  | cons op ops ih =>
    intro m0 h
    rw [List.foldl_cons]
    cases op with
    | file f => exact ih m0 h
    | tree pfx => exact ih m0 h
    | meta k v => exact ih _ (dictSet_nodupKeys h k v)

theorem finalMeta_nodup (ops : List HOp) :
    ((finalMeta ops).map (fun kv => kv.1)).Nodup := by
  rw [finalMeta_eq_foldl]
  exact metaFold_nodup ops [] (by simp)

/- ### More prefix lemmas (for normalization and the slash question) -/

theorem startsWithB_iff_take (k p : List Nat) :
    startsWithB k p = true ↔ k.take p.length = p := by
  rw [startsWithB_iff]
  constructor
  · intro h
    conv_lhs => rw [← h]
    exact List.take_left p (k.drop p.length)
  · intro h
    conv_rhs => rw [← List.take_append_drop p.length k, h]

theorem startsWithB_shorten {k a b : List Nat}
    (h : startsWithB k (a ++ b) = true) : startsWithB k a = true := by
  rw [startsWithB_iff_take] at h ⊢
  have : k.take a.length = (k.take (a ++ b).length).take a.length := by
    rw [List.take_take]
    congr 1
    simp
  rw [this, h, List.take_append_eq_append_take]
  simp

theorem startsWithB_extend {k p t : List Nat}
    (h : startsWithB k p = true) : startsWithB (k ++ t) p = true := by
  rw [startsWithB_iff_take] at h ⊢
  have hlen : p.length ≤ k.length := by
    have := congrArg List.length h
    simp at this
    omega
  rw [List.take_append_eq_append_take, h]
  have : p.length - k.length = 0 := by omega
  rw [this]
  simp

/-- Appending the path separator commutes with normalization except in the
pathological case where the query is exactly the repo root minus its
slash. -/
theorem normPath_append_slash (rs p : List Nat) (hne : rs ≠ p ++ [47]) :
    normPath rs (p ++ [47]) = normPath rs p ++ [47] := by
  by_cases h1 : startsWithB p rs = true
  · have h2 : startsWithB (p ++ [47]) rs = true := startsWithB_extend h1
    rw [normPath, normPath, if_pos h1, if_pos h2]
    have hlen : rs.length ≤ p.length := by
      rw [startsWithB_iff_take] at h1
      have := congrArg List.length h1
      simp at this
      omega
    rw [List.drop_append_eq_append_drop]
    have : rs.length - p.length = 0 := by omega
    rw [this]
    simp
  · have h2 : startsWithB (p ++ [47]) rs = false := by
      cases hsw : startsWithB (p ++ [47]) rs with
      | false => rfl
      | true =>
        rw [startsWithB_iff_take] at hsw
        have hlen : rs.length ≤ p.length + 1 := by
          have := congrArg List.length hsw
          simp at this
          omega
        rcases Nat.lt_or_ge rs.length (p.length + 1) with hc | hc
        · have : (p ++ [47]).take rs.length = p.take rs.length := by
            rw [List.take_append_eq_append_take]
            have : rs.length - p.length = 0 := by omega
            rw [this]
            simp
          rw [this] at hsw
          have : startsWithB p rs = true := by
            rw [startsWithB_iff_take, hsw]
          rw [this] at h1
          exact absurd rfl h1
        · have hlen2 : rs.length = p.length + 1 := by omega
          have : (p ++ [47]).take rs.length = p ++ [47] := by
            apply List.take_of_length_le
            simp
            omega
          rw [this] at hsw
          exact absurd hsw.symm hne
    have h1f : startsWithB p rs = false := by
      cases hc : startsWithB p rs with
      | false => rfl
      | true => exact absurd hc h1
    rw [normPath, normPath, if_neg (by simp [h2]), if_neg (by simp [h1f])]

/- ### Minimal-octal correctness of the mode rendering -/

/-- Read an ASCII octal digit string back as a number. -/
def fromOct (l : List Nat) : Nat := l.foldl (fun acc d => acc * 8 + (d - 48)) 0

theorem fromOct_append_digit (l : List Nat) (d : Nat) :
    fromOct (l ++ [d]) = fromOct l * 8 + (d - 48) := by
  rw [fromOct, fromOct, List.foldl_append]
  rfl

theorem octDigits_zero (fuel : Nat) : octDigits fuel 0 = [] := by
  cases fuel with
  | zero => rfl
  | succ fuel => simp [octDigits]

theorem octDigits_spec : ∀ fuel n, n ≤ fuel →
    fromOct (octDigits fuel n) = n ∧
    (∀ d ∈ octDigits fuel n, 48 ≤ d ∧ d ≤ 55) ∧
    (1 ≤ n → octDigits fuel n ≠ [] ∧ (octDigits fuel n).head? ≠ some 48) := by
  intro fuel
  induction fuel with
  | zero =>
    intro n hn
    have h0 : n = 0 := by omega
    subst h0
    refine ⟨rfl, by simp [octDigits], by omega⟩
  | succ fuel ih =>
    intro n hn
    by_cases h0 : n = 0
    · subst h0
      refine ⟨rfl, by simp [octDigits], by omega⟩
    · have hlt : n / 8 < n := Nat.div_lt_self (by omega) (by omega)
      have hdiv : n / 8 ≤ fuel := by omega
      obtain ⟨ih1, ih2, ih3⟩ := ih (n / 8) hdiv
      have hstep : octDigits (fuel + 1) n = octDigits fuel (n / 8) ++ [48 + n % 8] := by
        rw [octDigits, if_neg h0]
      refine ⟨?_, ?_, ?_⟩
      · rw [hstep, fromOct_append_digit, ih1]
        omega
      · intro d hd
        rw [hstep] at hd
        rcases List.mem_append.mp hd with hd | hd
        · exact ih2 d hd
        · have : d = 48 + n % 8 := by simpa using hd
          have : n % 8 < 8 := Nat.mod_lt _ (by omega)
          omega
      · intro _
        rw [hstep]
        refine ⟨by simp, ?_⟩
        by_cases hq : n / 8 = 0
        · rw [hq, octDigits_zero, List.nil_append]
          have hm : n % 8 = n := by omega
          simp only [List.head?_cons, ne_eq, Option.some.injEq]
          omega
        · obtain ⟨hne, hh⟩ := ih3 (by omega)
          cases hl : octDigits fuel (n / 8) with
          | nil => exact absurd hl hne
          | cons x xs =>
            rw [hl] at hh
            simpa using hh

/-- `b'%o'` renders the exact value, with octal digits only, no padding
and no leading zero (except the single digit `0` for zero). -/
theorem octB_spec (n : Nat) :
    fromOct (octB n) = n ∧
    (∀ d ∈ octB n, 48 ≤ d ∧ d ≤ 55) ∧
    octB n ≠ [] ∧
    (n = 0 → octB n = [48]) ∧
    (1 ≤ n → (octB n).head? ≠ some 48) := by
  by_cases h0 : n = 0
  · subst h0
    refine ⟨rfl, by simp [octB, fromOct], by simp [octB], fun _ => rfl, by omega⟩
  · obtain ⟨h1, h2, h3⟩ := octDigits_spec n n (le_refl n)
    obtain ⟨h4, h5⟩ := h3 (by omega)
    rw [show octB n = octDigits n n from if_neg h0]
    exact ⟨h1, h2, h4, fun hc => absurd hc h0, fun _ => h5⟩

/- ### The digest is a 40-character lowercase hex string -/

theorem hexChar_mem_of_lt (n : Nat) (h : n < 16) :
    hexChar n ∈ ("0123456789abcdef").data := by
  interval_cases n <;> decide

theorem toHex8_mem (w : Nat) :
    ∀ c ∈ toHex8 w, c ∈ ("0123456789abcdef").data := by
  intro c hc
  have h16 : ∀ x : Nat, x % 16 < 16 := fun x => Nat.mod_lt _ (by omega)
  rw [toHex8] at hc
  simp only [List.mem_cons, List.not_mem_nil, or_false] at hc
  rcases hc with h | h | h | h | h | h | h | h <;>
    (subst h; exact hexChar_mem_of_lt _ (h16 _))

theorem sha1Hex_hex (m : List Nat) :
    (sha1Hex m).data.length = 40 ∧
    ∀ c ∈ (sha1Hex m).data, c ∈ ("0123456789abcdef").data := by
  rcases hh : sha1 m with ⟨a, b, c, d, e⟩
  have hs : (sha1Hex m).data =
      toHex8 a ++ toHex8 b ++ toHex8 c ++ toHex8 d ++ toHex8 e := by
    rw [sha1Hex, hh]
  rw [hs]
  constructor
  · simp [toHex8]
  · intro ch hch
    simp only [List.append_assoc, List.mem_append] at hch
    rcases hch with h | h | h | h | h <;> exact toHex8_mem _ ch h

instance {ε α : Type} [DecidableEq ε] [DecidableEq α] :
    DecidableEq (Except ε α) := fun x y =>
  match x, y with
  | Except.ok a, Except.ok b =>
      if h : a = b then isTrue (h ▸ rfl)
      else isFalse (fun hc => h (Except.ok.inj hc))
  | Except.error e, Except.error f =>
      if h : e = f then isTrue (h ▸ rfl)
      else isFalse (fun hc => h (Except.error.inj hc))
  | Except.ok _, Except.error _ => isFalse (fun hc => Except.noConfusion hc)
  | Except.error _, Except.ok _ => isFalse (fun hc => Except.noConfusion hc)

/- ### Concrete fixtures for witnesses and counterexamples -/

/-- A regular-file entry (mode `0o100644`), content address `aa`. -/
def entryA : Entry := { mode := 33188, sha := bytes "aa" }

/-- A regular-file entry (mode `0o100644`), content address `bb`. -/
def entryB : Entry := { mode := 33188, sha := bytes "bb" }

/-- A synchronized repo whose index holds `dir/file` and the sibling
`dirfoo` (keys in ascending byte order). -/
def stDirfoo : RepoState :=
  { repoDir := bytes "/r", repoDirSlash := bytes "/r/",
    index := [(bytes "dir/file", entryA), (bytes "dirfoo", entryB)] }

/-- A repo that was never synchronized (empty index). -/
def stEmpty : RepoState := mkRepo (bytes "/r")

/-- A synchronized repo whose only entry is `dir/file`. -/
def stOne : RepoState :=
  { repoDir := bytes "/r", repoDirSlash := bytes "/r/",
    index := [(bytes "dir/file", entryA)] }

/-- A successful `git add -A` outcome producing one index entry. -/
def toolOk : ToolResult :=
  { retcode := 0, stdout := [], stderr := [],
    indexEntries := [(bytes "f", entryA)] }

/- ### Claim theorems -/

/-- C9: `_norm_path` strips the leading repo-root-plus-separator exactly
when present (the result is the exact remaining suffix) and otherwise
returns the path unchanged; it does nothing else. -/
theorem c9_norm_path (rs p : List Nat) :
    (startsWithB p rs = true →
      rs ++ normPath rs p = p ∧ normPath rs p = p.drop rs.length) ∧
    (startsWithB p rs = false → normPath rs p = p) := by
  constructor
  · intro h
    refine ⟨?_, by rw [normPath, if_pos h]⟩
    rw [normPath, if_pos h]
    exact (startsWithB_iff p rs).mp h
  · intro h
    rw [normPath, if_neg (by simp [h])]

/-- Witness for C9 at the repo root `/r/` and the path `/r/dir`. -/
theorem c9_norm_path_witness :
    startsWithB (bytes "/r/dir") (bytes "/r/") = true ∧
    bytes "/r/" ++ normPath (bytes "/r/") (bytes "/r/dir") = bytes "/r/dir" :=
  ⟨by decide, ((c9_norm_path (bytes "/r/") (bytes "/r/dir")).1 (by decide)).1⟩

/-- C8: `_entry_str` renders exactly minimal-octal cleaned mode, space,
content address, space, stage marker `0`, tab, path — and the octal field
reads back as the cleaned mode, uses octal digit bytes only, and has no
leading zero (a lone `0` only for mode 0). -/
theorem c8_entry_render_layout (e : Entry) (p : List Nat) :
    entryStr e p =
      octB (cleanupMode e.mode) ++ [32] ++ e.sha ++ [32] ++ [48] ++ [9] ++ p ∧
    fromOct (octB (cleanupMode e.mode)) = cleanupMode e.mode ∧
    (∀ d ∈ octB (cleanupMode e.mode), 48 ≤ d ∧ d ≤ 55) ∧
    (1 ≤ cleanupMode e.mode → (octB (cleanupMode e.mode)).head? ≠ some 48) ∧
    (cleanupMode e.mode = 0 → octB (cleanupMode e.mode) = [48]) := by
  obtain ⟨h1, h2, h3, h4, h5⟩ := octB_spec (cleanupMode e.mode)
  refine ⟨by rw [entryStr]; simp, h1, h2, h5, h4⟩

/-- Witness for C8 on a concrete `0o100644` entry. -/
theorem c8_entry_render_layout_witness :
    entryStr entryA (bytes "file") = bytes "100644 aa 0\tfile" ∧
    entryStr entryA (bytes "file") =
      octB (cleanupMode entryA.mode) ++ [32] ++ entryA.sha ++
        [32] ++ [48] ++ [9] ++ bytes "file" :=
  ⟨by decide, (c8_entry_render_layout entryA (bytes "file")).1⟩

/-- C6: when the external tool exits non-zero, `update` raises the
execution error carrying the stripped stderr and leaves the repo state —
in particular its index — exactly as it was. -/
theorem c6_exec_error_state_unchanged (st : RepoState) (r : ToolResult)
    (hr : r.retcode ≠ 0) :
    update st r = (st, Except.error (PyErr.executionError (stripB r.stderr))) := by
  rw [update, if_pos hr]

/-- Witness for C6: a failing invocation against the one-entry repo. -/
theorem c6_exec_error_state_unchanged_witness :
    update stOne
      { retcode := 1, stdout := [], stderr := bytes " boom\n", indexEntries := [] } =
      (stOne, Except.error (PyErr.executionError
        (stripB (bytes " boom\n")))) :=
  c6_exec_error_state_unchanged stOne _ (by decide)

/-- C5: a path whose normalized form is not an index key makes `file`
raise `NoSuchFileError`, and a path whose normalized form is a string
prefix of no key makes `tree` raise `NoSuchFileError` (both carry the
caller's original argument). -/
theorem c5_missing_raises (st : RepoState) (p q : List Nat)
    (hf : dictGet (normPath st.repoDirSlash p) st.index = none)
    (ht : ∀ k ∈ indexKeys st,
      startsWithB k (normPath st.repoDirSlash q) = false) :
    repoFile st p = Except.error (PyErr.noSuchFile p) ∧
    repoTree st q = Except.error (PyErr.noSuchFile q) := by
  constructor
  · simp [repoFile, hf]
  · have hempty : subPathsK (indexKeys st) (normPath st.repoDirSlash q) = [] := by
      rw [List.eq_nil_iff_forall_not_mem]
      intro k hk
      have hpred := List.mem_takeWhile_imp hk
      have hmem : k ∈ indexKeys st :=
        List.Sublist.mem hk
          ((List.takeWhile_sublist _).trans (List.drop_sublist _ _))
      rw [ht k hmem] at hpred
      cases hpred
    simp [repoTree, hempty]

/-- Witness for C5: the directory path `dir` (never keyed on its own) and
the absent prefix `zzz` against the one-entry repo. -/
theorem c5_missing_raises_witness :
    dictGet (normPath stOne.repoDirSlash (bytes "dir")) stOne.index = none ∧
    repoFile stOne (bytes "dir") =
      Except.error (PyErr.noSuchFile (bytes "dir")) ∧
    repoTree stOne (bytes "zzz") =
      Except.error (PyErr.noSuchFile (bytes "zzz")) := by
  refine ⟨by decide, ?_, ?_⟩
  · exact (c5_missing_raises stOne (bytes "dir") (bytes "zzz")
      (by decide) (by decide)).1
  · exact (c5_missing_raises stOne (bytes "dir") (bytes "zzz")
      (by decide) (by decide)).2

/-- C10: the constructor raises `ValueError` when given neither a
directory nor a repo, and with a directory it builds the repo and runs
`update()` before returning (so the hasher holds the synchronized state,
and an update failure propagates out of the constructor). -/
theorem c10_init (t : ToolResult) :
    initHasher none none t = Except.error PyErr.valueError ∧
    (∀ (d : List Nat) (r : Option RepoState), d ≠ [] →
      initHasher (some d) r t =
        match (update (mkRepo d) t).2 with
        | Except.error e => Except.error e
        | Except.ok _ =>
            Except.ok { repo := (update (mkRepo d) t).1, stream := [], meta := [] }) := by
  constructor
  · rfl
  · intro d r hd
    rw [initHasher.eq_def, if_pos (show (some d).getD [] ≠ [] by simpa using hd)]
    simp

/-- Witness for C10: a successful construction from `/r` yields the
updated (synchronized) repo state inside the hasher. -/
theorem c10_init_witness :
    (bytes "/r") ≠ [] ∧
    initHasher (some (bytes "/r")) none toolOk =
      Except.ok
        { repo :=
            { repoDir := bytes "/r", repoDirSlash := bytes "/r/",
              index := [(bytes "f", entryA)] },
          stream := [], meta := [] } := by
  refine ⟨by decide, ?_⟩
  rw [(c10_init toolOk).2 (bytes "/r") none (by decide)]
  rfl

/-- C1: for every `GitHasher` session that completes without an error,
`digest()` returns the lowercase hexadecimal SHA-1 of the byte stream
formed by the rendered bytes of each `add_file`/`add_tree` call
concatenated in call order, followed, for each metadata key in sorted
order, by the key bytes then the value bytes. -/
theorem c1_digest_sha1_of_stream (st : RepoState) (ops : List HOp) (h : Hasher)
    (hrun : runOps { repo := st, stream := [], meta := [] } ops = Except.ok h) :
    (digestH h).2 =
      sha1Hex (ops.flatMap (opChunk st) ++ metaStream (finalMeta ops)) ∧
    (digestH h).2.data.length = 40 ∧
    (∀ c ∈ (digestH h).2.data, c ∈ ("0123456789abcdef").data) := by
  obtain ⟨hrepo, hstream, hmeta⟩ := runOps_ok ops _ h hrun
  have hd : (digestH h).2 =
      sha1Hex (ops.flatMap (opChunk st) ++ metaStream (finalMeta ops)) := by
    rw [digestH_snd, hstream, hmeta, finalMeta_eq_foldl]
    simp
  refine ⟨hd, ?_, ?_⟩
  · rw [hd]
    exact (sha1Hex_hex _).1
  · rw [hd]
    exact (sha1Hex_hex _).2

/-- Witness for C1: a run with one metadata call against the empty repo. -/
theorem c1_digest_sha1_of_stream_witness :
    runOps { repo := stEmpty, stream := [], meta := [] }
        [HOp.meta (bytes "a") (bytes "1")] =
      Except.ok { repo := stEmpty, stream := [],
                  meta := [(bytes "a", bytes "1")] } ∧
    (digestH { repo := stEmpty, stream := [],
               meta := [(bytes "a", bytes "1")] }).2 =
      sha1Hex ([HOp.meta (bytes "a") (bytes "1")].flatMap (opChunk stEmpty) ++
        metaStream (finalMeta [HOp.meta (bytes "a") (bytes "1")])) :=
  ⟨by rfl, (c1_digest_sha1_of_stream stEmpty _ _ (by rfl)).1⟩

/-- C4: the digest depends on metadata only through the final mapping —
same file/tree call sequence plus extensionally equal final metadata
mappings give equal digests (so call order is irrelevant and the last
value per key wins). -/
theorem c4_digest_meta_mapping_only (st : RepoState) (ops1 ops2 : List HOp)
    (h1 h2 : Hasher)
    (hops : nonMetaOps ops1 = nonMetaOps ops2)
    (hmeta : ∀ k, dictGet k (finalMeta ops1) = dictGet k (finalMeta ops2))
    (hr1 : runOps { repo := st, stream := [], meta := [] } ops1 = Except.ok h1)
    (hr2 : runOps { repo := st, stream := [], meta := [] } ops2 = Except.ok h2) :
    (digestH h1).2 = (digestH h2).2 := by
  obtain ⟨_, hs1, hm1⟩ := runOps_ok ops1 _ h1 hr1
  obtain ⟨_, hs2, hm2⟩ := runOps_ok ops2 _ h2 hr2
  rw [digestH_snd, digestH_snd, hs1, hs2, hm1, hm2, ← finalMeta_eq_foldl,
    ← finalMeta_eq_foldl]
  have hstreams : ops1.flatMap (opChunk st) = ops2.flatMap (opChunk st) := by
    rw [flatMap_opChunk_nonMeta, hops, ← flatMap_opChunk_nonMeta]
  have hms : metaStream (finalMeta ops1) = metaStream (finalMeta ops2) :=
    metaStream_ext (finalMeta_nodup ops1) (finalMeta_nodup ops2) hmeta
  simp [hstreams, hms]

/-- Witness for C4: last-write-wins — `a=2` then `a=1` digests like `a=1`
alone. -/
theorem c4_digest_meta_mapping_only_witness :
    runOps { repo := stEmpty, stream := [], meta := [] }
        [HOp.meta (bytes "a") (bytes "1")] =
      Except.ok { repo := stEmpty, stream := [],
                  meta := [(bytes "a", bytes "1")] } ∧
    runOps { repo := stEmpty, stream := [], meta := [] }
        [HOp.meta (bytes "a") (bytes "2"), HOp.meta (bytes "a") (bytes "1")] =
      Except.ok { repo := stEmpty, stream := [],
                  meta := [(bytes "a", bytes "1")] } ∧
    (digestH { repo := stEmpty, stream := [],
               meta := [(bytes "a", bytes "1")] }).2 =
      (digestH { repo := stEmpty, stream := [],
                 meta := [(bytes "a", bytes "1")] }).2 :=
  ⟨by rfl, by rfl,
    c4_digest_meta_mapping_only stEmpty
      [HOp.meta (bytes "a") (bytes "1")]
      [HOp.meta (bytes "a") (bytes "2"), HOp.meta (bytes "a") (bytes "1")]
      _ _ (by rfl) (fun k => by rfl) (by rfl) (by rfl)⟩

/-- Unfold `tree` to its range-search form. -/
theorem repoTree_eq (st : RepoState) (pfx : List Nat) :
    repoTree st pfx =
      if subPathsK (indexKeys st) (normPath st.repoDirSlash pfx) = []
      then Except.error (PyErr.noSuchFile pfx)
      else Except.ok (List.intercalate [10]
        ((subPathsK (indexKeys st) (normPath st.repoDirSlash pfx)).map
          (fun p => entryStr (getEntry st p) p))) := rfl

/-- C2: on a sorted index, `_sub_paths` returns exactly the keys having
the normalized prefix as a plain string prefix (so the sibling `dirfoo`
matches the prefix `dir`), in key order, and a successful `tree` returns
those entries rendered and joined by single newlines. -/
theorem c2_prefix_range (st : RepoState) (q : List Nat)
    (hs : (indexKeys st).Pairwise (fun a b => ltB a b = true)) :
    subPathsK (indexKeys st) (normPath st.repoDirSlash q) =
      (indexKeys st).filter
        (fun k => startsWithB k (normPath st.repoDirSlash q)) ∧
    ((indexKeys st).filter
        (fun k => startsWithB k (normPath st.repoDirSlash q)) ≠ [] →
      repoTree st q = Except.ok (List.intercalate [10]
        (((indexKeys st).filter
            (fun k => startsWithB k (normPath st.repoDirSlash q))).map
          (fun p => entryStr (getEntry st p) p)))) ∧
    startsWithB (bytes "dirfoo") (bytes "dir") = true := by
  have hmain := subPathsK_eq_filter (indexKeys st) (normPath st.repoDirSlash q) hs
  refine ⟨hmain, ?_, by decide⟩
  intro hne
  rw [repoTree_eq, hmain, if_neg hne]

/-- Witness for C2 on the two-entry repo and the prefix `dir`: the scan
returns both `dir/file` and the sibling `dirfoo`. -/
theorem c2_prefix_range_witness :
    (indexKeys stDirfoo).Pairwise (fun a b => ltB a b = true) ∧
    subPathsK (indexKeys stDirfoo)
        (normPath stDirfoo.repoDirSlash (bytes "dir")) =
      (indexKeys stDirfoo).filter
        (fun k => startsWithB k (normPath stDirfoo.repoDirSlash (bytes "dir"))) ∧
    (indexKeys stDirfoo).filter
        (fun k => startsWithB k (normPath stDirfoo.repoDirSlash (bytes "dir"))) =
      [bytes "dir/file", bytes "dirfoo"] :=
  ⟨by decide, (c2_prefix_range stDirfoo (bytes "dir") (by decide)).1, by decide⟩

/-- C3 (amended): trailing-separator insensitivity holds only when every
index key matching the normalized prefix `P` also matches `P + '/'` (no
exact-key match of `P` itself and no sibling like `dirfoo`); then a
successful `tree(P)` equals `tree(P + '/')` and `add_tree` digests agree. -/
theorem c3_tree_slash_amended (st : RepoState) (p : List Nat)
    (hs : (indexKeys st).Pairwise (fun a b => ltB a b = true))
    (hroot : st.repoDirSlash ≠ p ++ [47])
    (hmatch : ∀ k ∈ indexKeys st,
      startsWithB k (normPath st.repoDirSlash p) = true →
      startsWithB k (normPath st.repoDirSlash p ++ [47]) = true)
    (hne : (indexKeys st).filter
        (fun k => startsWithB k (normPath st.repoDirSlash p)) ≠ []) :
    repoTree st p = repoTree st (p ++ [47]) ∧
    (∀ h : Hasher, h.repo = st → addTreeH h p = addTreeH h (p ++ [47])) ∧
    (∀ (h h1 h2 : Hasher), h.repo = st → addTreeH h p = Except.ok h1 →
      addTreeH h (p ++ [47]) = Except.ok h2 →
      (digestH h1).2 = (digestH h2).2) := by
  have hnorm := normPath_append_slash st.repoDirSlash p hroot
  have hfeq : (indexKeys st).filter
      (fun k => startsWithB k (normPath st.repoDirSlash p)) =
      (indexKeys st).filter
        (fun k => startsWithB k (normPath st.repoDirSlash p ++ [47])) := by
    apply List.filter_congr
    intro k hk
    cases hswk : startsWithB k (normPath st.repoDirSlash p) with
    | true => rw [hmatch k hk hswk]
    | false =>
      cases hswk2 : startsWithB k (normPath st.repoDirSlash p ++ [47]) with
      | false => rfl
      | true =>
        have := startsWithB_shorten hswk2
        rw [hswk] at this
        cases this
  have htree : repoTree st p = repoTree st (p ++ [47]) := by
    rw [repoTree_eq, repoTree_eq, hnorm]
    rw [subPathsK_eq_filter _ _ hs, subPathsK_eq_filter _ _ hs, ← hfeq]
    rw [if_neg hne, if_neg hne]
  have hadd : ∀ h : Hasher, h.repo = st →
      addTreeH h p = addTreeH h (p ++ [47]) := by
    intro h hrepo
    rw [addTreeH, addTreeH, hrepo, htree]
  refine ⟨htree, hadd, ?_⟩
  intro h h1 h2 hrepo ha1 ha2
  rw [hadd h hrepo] at ha1
  rw [ha1] at ha2
  cases ha2
  rfl

/-- Witness for the amended C3: the one-entry repo, where `dir` has no
sibling, so `tree('dir')` and `tree('dir/')` agree. -/
theorem c3_tree_slash_amended_witness :
    (indexKeys stOne).Pairwise (fun a b => ltB a b = true) ∧
    (∀ k ∈ indexKeys stOne,
      startsWithB k (normPath stOne.repoDirSlash (bytes "dir")) = true →
      startsWithB k (normPath stOne.repoDirSlash (bytes "dir") ++ [47]) = true) ∧
    repoTree stOne (bytes "dir") = repoTree stOne (bytes "dir" ++ [47]) :=
  ⟨by decide, by decide,
    (c3_tree_slash_amended stOne (bytes "dir") (by decide) (by decide)
      (by decide) (by decide)).1⟩

/-- A hasher that fed the `tree('dir')` listing of `stDirfoo`. -/
def hTreeNoSlash : Hasher :=
  { repo := stDirfoo,
    stream := bytes "100644 aa 0\tdir/file\n100644 bb 0\tdirfoo",
    meta := [] }

/-- A hasher that fed the `tree('dir/')` listing of `stDirfoo`. -/
def hTreeSlash : Hasher :=
  { repo := stDirfoo, stream := bytes "100644 aa 0\tdir/file", meta := [] }

set_option maxRecDepth 40000 in
/-- C3 fails as stated: on the sorted snapshot with the sibling key
`dirfoo`, both `tree('dir')` and `tree('dir/')` succeed yet return
different bytes, and the corresponding `add_tree` digests differ. -/
theorem c3_counterexample :
    (indexKeys stDirfoo).Pairwise (fun a b => ltB a b = true) ∧
    repoTree stDirfoo (bytes "dir") =
      Except.ok (bytes "100644 aa 0\tdir/file\n100644 bb 0\tdirfoo") ∧
    repoTree stDirfoo (bytes "dir" ++ [47]) =
      Except.ok (bytes "100644 aa 0\tdir/file") ∧
    repoTree stDirfoo (bytes "dir") ≠ repoTree stDirfoo (bytes "dir" ++ [47]) ∧
    addTreeH { repo := stDirfoo, stream := [], meta := [] } (bytes "dir") =
      Except.ok hTreeNoSlash ∧
    addTreeH { repo := stDirfoo, stream := [], meta := [] } (bytes "dir" ++ [47]) =
      Except.ok hTreeSlash ∧
    (digestH hTreeNoSlash).2 ≠ (digestH hTreeSlash).2 := by
  refine ⟨by decide, by decide, by decide, by decide, by decide, by decide,
    by decide⟩

/-- The hasher after `add_meta('a', '1')` on a fresh `GitHasher`. -/
def hMetaA1 : Hasher :=
  { repo := stEmpty, stream := [], meta := [(bytes "a", bytes "1")] }

set_option maxRecDepth 40000 in
/-- C7: `digest()` folds the metadata into the shared hash state on every
call — a second call hashes the stream with the metadata folded twice,
and on a hasher with one metadata entry the two calls disagree. -/
theorem c7_digest_not_idempotent :
    (∀ h : Hasher, (digestH (digestH h).1).2 =
      sha1Hex (h.stream ++ metaStream h.meta ++ metaStream h.meta)) ∧
    (digestH (digestH hMetaA1).1).2 ≠ (digestH hMetaA1).2 := by
  constructor
  · intro h
    rw [digestH_snd]
    simp [digestH, hashMetaH]
  · decide
